import Mathlib

/-!
# Formalisation of the split-bill OCR app (`src/project/src/App.tsx`)

Shallow embedding of the data model and the computational parts of the
React component `App`: the people-list operations (`addPerson`,
`removePerson`), the OCR price extractor inside `processImage`
(line splitting, trimming, the trailing-price regular expression
`(?:[$]?\s*(\d+(?:\.\d{2})?))$`, `parseFloat`, and the range filter),
the split calculator (`calculateTotal`, `calculatePerPerson`) and the
per-item assignment toggle (`toggleItemAssignment`).

Monetary values are modelled as exact rationals (`ℚ`).  Strings from the
OCR text are modelled as `List Char`; person ids stay `String`.
-/

/-- `interface Person` from App.tsx. -/
structure Person where
  id : String
  name : String
deriving DecidableEq, Repr

/-- `interface BillItem` from App.tsx.  `amount` is exact (`ℚ`). -/
structure BillItem where
  description : String
  amount : ℚ
  includedInSplit : Bool
  assignedTo : List String
deriving DecidableEq, Repr

instance : Inhabited BillItem := ⟨⟨"", 0, false, []⟩⟩

/-- Initial `people` state: `[{id:'1',name:'Person 1'},{id:'2',name:'Person 2'}]`. -/
def initialPeople : List Person :=
  [⟨"1", "Person 1"⟩, ⟨"2", "Person 2"⟩]

/-- `addPerson`: `newId = (people.length + 1).toString()`; appends
`{id: newId, name: 'Person ' ++ newId}`. -/
def addPerson (people : List Person) : List Person :=
  people ++ [⟨toString (people.length + 1), "Person " ++ toString (people.length + 1)⟩]

/-- `removePerson(id)`: guarded by `people.length > 2`; filters the person out
of `people` and prunes `id` from every item's `assignedTo`. -/
def removePerson (id : String) (people : List Person) (items : List BillItem) :
    List Person × List BillItem :=
  if 2 < people.length then
    (people.filter (fun p => p.id ≠ id),
     items.map (fun it => { it with assignedTo := it.assignedTo.filter (fun pid => pid ≠ id) }))
  else (people, items)

/-- `calculateTotal()`: sum of `amount` over items with `includedInSplit`. -/
def calculateTotal (items : List BillItem) : ℚ :=
  ((items.filter (fun it => it.includedInSplit)).map (fun it => it.amount)).sum

/-- `calculatePerPerson(personId)`: sum of `amount / assignedTo.length` over
items with `includedInSplit` whose `assignedTo` includes `personId`. -/
def calculatePerPerson (personId : String) (items : List BillItem) : ℚ :=
  ((items.filter (fun it => it.includedInSplit && it.assignedTo.contains personId)).map
    (fun it => it.amount / (it.assignedTo.length : ℚ))).sum

/-- Per-item core of `toggleItemAssignment`: remove `personId` when assigned and
`assignedTo.length > 1`; no-op when assigned with length ≤ 1; append otherwise. -/
def toggleAssign (item : BillItem) (personId : String) : BillItem :=
  if item.assignedTo.contains personId then
    if 1 < item.assignedTo.length then
      { item with assignedTo := item.assignedTo.filter (fun id => id ≠ personId) }
    else item
  else
    { item with assignedTo := item.assignedTo ++ [personId] }

/-- `toggleItemAssignment(itemIndex, personId)`: copy of the list with the
item at `itemIndex` replaced by its toggled version. -/
def toggleItemAssignment (items : List BillItem) (itemIndex : Nat) (personId : String) :
    List BillItem :=
  match items, itemIndex with
  | [], _ => []
  | it :: rest, 0 => toggleAssign it personId :: rest
  | it :: rest, n + 1 => it :: toggleItemAssignment rest n personId

/-! ## Price extractor (`processImage` after the OCR call)

The line loop matches `trimmedLine.match(/(?:[$]?\s*(\d+(?:\.\d{2})?))$/)`.
Because the pattern is anchored only at the end of the line, a match starting
at index `i` exists iff the whole suffix from `i` is of the form
`[$]? whitespace* digits+ ('.' digit digit)?`, and JavaScript returns the
leftmost such suffix; the capture group is the suffix minus the optional `$`
and whitespace.  `priceCapture` implements exactly that. -/

/-- JavaScript `\s` / `trim` whitespace, restricted to the characters that can
occur here (space, tab, CR, LF). -/
def isSpaceJS (c : Char) : Bool := c.isWhitespace

/-- The optional leading `[$]?` of the pattern. -/
def stripDollar (cs : List Char) : List Char :=
  if cs.head? = some '$' then cs.tail else cs

/-- Strip the `[$]?\s*` prefix of a candidate suffix. -/
def stripHead (cs : List Char) : List Char :=
  (stripDollar cs).dropWhile isSpaceJS

/-- Does `cs` consist of `\d+(\.\d{2})?` exactly (the capture group, anchored
at the end of the line)? -/
def groupOk (cs : List Char) : Bool :=
  let ds := cs.takeWhile Char.isDigit
  let rest := cs.dropWhile Char.isDigit
  ds ≠ [] &&
    (rest = [] ||
      (rest.length = 3 && rest.head? = some '.' && (rest.drop 1).all Char.isDigit))

/-- Does the whole suffix `cs` match `[$]?\s*\d+(\.\d{2})?` (anchored at both
ends, the end anchor being the regex's `$`)? -/
def suffixMatch (cs : List Char) : Bool :=
  groupOk (stripHead cs)

/-- Leftmost match of `/(?:[$]?\s*(\d+(?:\.\d{2})?))$/`: scan start positions
left to right; on the first suffix that matches, return the capture group. -/
def priceCapture : List Char → Option (List Char)
  | [] => none
  | c :: cs => if suffixMatch (c :: cs) then some (stripHead (c :: cs)) else priceCapture cs

/-- `String.prototype.trim` on a line. -/
def trimJS (cs : List Char) : List Char :=
  ((cs.dropWhile isSpaceJS).reverse.dropWhile isSpaceJS).reverse

/-- `text.split('\n')`. -/
def splitOnNl : List Char → List (List Char)
  | [] => [[]]
  | '\n' :: cs => [] :: splitOnNl cs
  | c :: cs =>
    match splitOnNl cs with
    | [] => [[c]]
    | l :: ls => (c :: l) :: ls

/-- Numeric value of a digit run (how `parseFloat` reads the integer and
fraction parts). -/
def digitsToNat (cs : List Char) : Nat :=
  cs.foldl (fun n c => 10 * n + (c.toNat - '0'.toNat)) 0

/-- `parseFloat` on a captured candidate.  Every capture group is
`\d+(\.\d{2})?`, so the value is exact with two decimals:
integer part plus fraction part over 100. -/
def parseQ (cs : List Char) : ℚ :=
  let ip := cs.takeWhile Char.isDigit
  let rest := cs.dropWhile Char.isDigit
  (digitsToNat ip : ℚ) +
    (if rest.head? = some '.' then (digitsToNat rest.tail : ℚ) / 100 else 0)

/-- The `prices` array built by the loop in `processImage`: for each line,
trim, match the price pattern, parse, and keep the candidate string when
`price > 0` (the `isNaN` test never fires on a `\d+(\.\d{2})?` capture) and
`0.50 <= price <= 1000`. -/
def extractPrices (text : List Char) : List (List Char) :=
  (splitOnNl text).filterMap fun line =>
    match priceCapture (trimJS line) with
    | none => none
    | some s =>
      let price := parseQ s
      if 0 < price ∧ 1 / 2 ≤ price ∧ price ≤ 1000 then some s else none

/-- `prices.map((price, index) => ({...}))`: one `BillItem` per surviving
candidate, with running index `i` (0-based). -/
def buildItems (peopleIds : List String) : Nat → List (List Char) → List BillItem
  | _, [] => []
  | i, p :: ps =>
    { description := "Item " ++ toString (i + 1)
      amount := parseQ p
      includedInSplit := true
      assignedTo := peopleIds } :: buildItems peopleIds (i + 1) ps

/-- The item list produced by a successful extraction. -/
def extractItems (text : List Char) (peopleIds : List String) : List BillItem :=
  buildItems peopleIds 0 (extractPrices text)

/-! ## Session state and the post-OCR transition -/

/-- The session state relevant to the claims: `items`, `people`, `error`. -/
structure AppState where
  items : List BillItem
  people : List Person
  error : Option String
deriving DecidableEq, Repr

/-- The error message set when no candidate survives. -/
def noPricesMsg : String :=
  "No prices found in the receipt. Please ensure the image is clear and contains dollar amounts."

/-- The state transition `processImage` performs once OCR returned `text`:
`setError(null)` first; then if `prices.length > 0` replace the items
wholesale, else set the no-prices error (items untouched). -/
def processText (text : List Char) (s : AppState) : AppState :=
  let prices := extractPrices text
  if 0 < prices.length then
    { s with items := buildItems (s.people.map Person.id) 0 prices, error := none }
  else
    { s with error := some noPricesMsg }

/-- The state transition performed by the `addPerson` handler. -/
def addPersonState (s : AppState) : AppState :=
  { s with people := addPerson s.people }

/-- States of `{people, items}` reachable from the initial state under the
`addPerson` and `removePerson` handlers. -/
inductive Reachable : List Person → List BillItem → Prop
  | init : Reachable initialPeople []
  | addP {ps its} : Reachable ps its → Reachable (addPerson ps) its
  | removeP {ps its} (id : String) :
      Reachable ps its → Reachable (removePerson id ps its).1 (removePerson id ps its).2

example : calculatePerPerson "1" [⟨"Item 1", 20, true, ["1", "2"]⟩] = 10 := by
  simp [calculatePerPerson]
  norm_num

example : (addPerson (removePerson "1" (addPerson initialPeople) []).1).map Person.id
    = ["2", "3", "3"] := by decide

example : priceCapture ("12.505".toList) = some ['5', '0', '5'] := by decide

example : priceCapture ("Coffee  $ 12.50".toList) = some ['1', '2', '.', '5', '0'] := by decide

example : priceCapture ("Total: $12.50 USD".toList) = none := by decide

example : extractPrices ("hello\nworld".toList) = [] := by decide

example : parseQ ['5', '0', '5'] = 505 := by
  have ht : (['5', '0', '5'].takeWhile Char.isDigit) = ['5', '0', '5'] := by decide
  have hd : (['5', '0', '5'].dropWhile Char.isDigit) = [] := by decide
  have hn : digitsToNat ['5', '0', '5'] = 505 := by decide
  simp [parseQ, ht, hd, hn]

example : extractPrices ("12.505".toList) = [['5', '0', '5']] := by
  have hs : splitOnNl ['1', '2', '.', '5', '0', '5'] = [['1', '2', '.', '5', '0', '5']] := by
    decide
  have hc : priceCapture (trimJS ['1', '2', '.', '5', '0', '5']) = some ['5', '0', '5'] := by
    decide
  have hp : parseQ ['5', '0', '5'] = 505 := by
    have ht : (['5', '0', '5'].takeWhile Char.isDigit) = ['5', '0', '5'] := by decide
    have hd : (['5', '0', '5'].dropWhile Char.isDigit) = [] := by decide
    have hn : digitsToNat ['5', '0', '5'] = 505 := by decide
    simp [parseQ, ht, hd, hn]
  have htl : ("12.505".toList) = ['1', '2', '.', '5', '0', '5'] := by decide
  rw [extractPrices, htl, hs, List.filterMap_cons, hc]
  norm_num [hp]

/-! ## Helper lemmas -/

theorem calculatePerPerson_append (pid : String) (l1 l2 : List BillItem) :
    calculatePerPerson pid (l1 ++ l2) = calculatePerPerson pid l1 + calculatePerPerson pid l2 := by
  simp [calculatePerPerson, List.filter_append]

theorem calculatePerPerson_cons (pid : String) (it : BillItem) (l : List BillItem) :
    calculatePerPerson pid (it :: l) =
      (if it.includedInSplit = true ∧ pid ∈ it.assignedTo
        then it.amount / (it.assignedTo.length : ℚ) else 0) + calculatePerPerson pid l := by
  by_cases h : it.includedInSplit = true ∧ pid ∈ it.assignedTo
  · have hb : (it.includedInSplit && it.assignedTo.contains pid) = true := by
      simp [h.1, h.2]
    simp [calculatePerPerson, List.filter_cons, hb, h]
  · have hb : (it.includedInSplit && it.assignedTo.contains pid) = false := by
      cases hi : it.includedInSplit with
      | false => simp
      | true =>
        have h2 : pid ∉ it.assignedTo := fun hm => h ⟨hi, hm⟩
        simp [h2]
    simp [calculatePerPerson, List.filter_cons, hb, h]

theorem calculateTotal_cons (it : BillItem) (l : List BillItem) :
    calculateTotal (it :: l) =
      (if it.includedInSplit = true then it.amount else 0) + calculateTotal l := by
  by_cases h : it.includedInSplit = true
  · simp [calculateTotal, List.filter_cons, h]
  · simp [calculateTotal, List.filter_cons, h]

/-- A person not mentioned by any item owes nothing. -/
theorem calculatePerPerson_of_not_mem (pid : String) (items : List BillItem)
    (h : ∀ it ∈ items, pid ∉ it.assignedTo) :
    calculatePerPerson pid items = 0 := by
  induction items with
  | nil => simp [calculatePerPerson]
  | cons it l ih =>
    rw [calculatePerPerson_cons]
    have h1 : pid ∉ it.assignedTo := h it (List.mem_cons_self it l)
    rw [if_neg (fun hc => h1 hc.2), ih (fun j hj => h j (List.mem_cons_of_mem it hj))]
    ring

/-! ## Claim theorems -/

/-- **C8** Removal pruning: when more than two people exist, `removePerson id`
keeps the item list's length, removes `id` from every item's `assignedTo`,
keeps all the other assignees in order (the new `assignedTo` is exactly the old
one filtered), and leaves `description`, `amount` and `includedInSplit` of
every item unchanged. -/
theorem removePerson_prunes (id : String) (people : List Person) (items : List BillItem)
    (h : 2 < people.length) :
    ((removePerson id people items).2.length = items.length ∧
      ∀ i, i < items.length →
        ((removePerson id people items).2.getD i default).description
            = (items.getD i default).description ∧
        ((removePerson id people items).2.getD i default).amount
            = (items.getD i default).amount ∧
        ((removePerson id people items).2.getD i default).includedInSplit
            = (items.getD i default).includedInSplit ∧
        ((removePerson id people items).2.getD i default).assignedTo
            = (items.getD i default).assignedTo.filter (fun pid => pid ≠ id)) ∧
    ∀ it ∈ (removePerson id people items).2, id ∉ it.assignedTo := by
  have hr : (removePerson id people items).2
      = items.map (fun it =>
          { it with assignedTo := it.assignedTo.filter (fun pid => pid ≠ id) }) := by
    simp [removePerson, if_pos h]
  refine ⟨⟨by simp [hr], ?_⟩, ?_⟩
  · intro i hi
    have hi' : i < ((removePerson id people items).2).length := by simp [hr, hi]
    rw [List.getD_eq_getElem _ _ hi, List.getD_eq_getElem _ _ hi']
    simp [hr]
  · intro it hit
    rw [hr] at hit
    obtain ⟨j, _, rfl⟩ := List.mem_map.mp hit
    simp

/-- A concrete three-person state used in witnesses. -/
def egPeople3 : List Person := [⟨"1", "Person 1"⟩, ⟨"2", "Person 2"⟩, ⟨"3", "Person 3"⟩]

/-- A concrete one-item list used in witnesses. -/
def egItems1 : List BillItem := [⟨"Item 1", 10, true, ["1", "2"]⟩]

/-- Witness for C8 at a concrete three-person state. -/
theorem removePerson_prunes_witness :
    2 < egPeople3.length ∧
    (((removePerson "1" egPeople3 egItems1).2.length = egItems1.length ∧
      ∀ i, i < egItems1.length →
        ((removePerson "1" egPeople3 egItems1).2.getD i default).description
            = (egItems1.getD i default).description ∧
        ((removePerson "1" egPeople3 egItems1).2.getD i default).amount
            = (egItems1.getD i default).amount ∧
        ((removePerson "1" egPeople3 egItems1).2.getD i default).includedInSplit
            = (egItems1.getD i default).includedInSplit ∧
        ((removePerson "1" egPeople3 egItems1).2.getD i default).assignedTo
            = (egItems1.getD i default).assignedTo.filter (fun pid => pid ≠ "1")) ∧
    ∀ it ∈ (removePerson "1" egPeople3 egItems1).2, "1" ∉ it.assignedTo) :=
  ⟨by decide, removePerson_prunes "1" egPeople3 egItems1 (by decide)⟩

/-- **C9** Empty-assignee safety: an included item whose `assignedTo` is empty
contributes exactly `0` to `calculatePerPerson` (removing it from the list does
not change any person's share), and every item that reaches the
`amount / assignedTo.length` division — i.e. that survives the
`includedInSplit && assignedTo.includes(personId)` filter — has a non-zero
denominator. -/
theorem calculatePerPerson_empty_assigned (pid : String) (l1 l2 : List BillItem) (it : BillItem)
    (_h1 : it.includedInSplit = true) (h2 : it.assignedTo = []) :
    calculatePerPerson pid (l1 ++ it :: l2) = calculatePerPerson pid (l1 ++ l2) ∧
    ∀ j ∈ (l1 ++ it :: l2).filter (fun x => x.includedInSplit && x.assignedTo.contains pid),
      0 < j.assignedTo.length := by
  constructor
  · rw [calculatePerPerson_append, calculatePerPerson_append, calculatePerPerson_cons]
    rw [if_neg (fun hc => by simp [h2] at hc)]
    ring
  · intro j hj
    have hc := (List.mem_filter.mp hj).2
    simp only [Bool.and_eq_true] at hc
    have : pid ∈ j.assignedTo := List.elem_iff.mp hc.2
    exact List.length_pos.mpr (List.ne_nil_of_mem this)

/-- Concrete items used in the C9 witness. -/
def egItemA : BillItem := ⟨"Item 1", 10, true, ["1"]⟩

/-- An included item with an empty `assignedTo`. -/
def egItemEmpty : BillItem := ⟨"Item 2", 7, true, []⟩

/-- Another concrete item used in the C9 witness. -/
def egItemB : BillItem := ⟨"Item 3", 4, true, ["1", "2"]⟩

/-- Witness for C9 at a concrete state. -/
theorem calculatePerPerson_empty_assigned_witness :
    egItemEmpty.includedInSplit = true ∧
    egItemEmpty.assignedTo = [] ∧
    (calculatePerPerson "1" ([egItemA] ++ egItemEmpty :: [egItemB])
        = calculatePerPerson "1" ([egItemA] ++ [egItemB]) ∧
    ∀ j ∈ ([egItemA] ++ egItemEmpty :: [egItemB]).filter
        (fun x => x.includedInSplit && x.assignedTo.contains "1"),
      0 < j.assignedTo.length) :=
  ⟨by decide, by decide,
   calculatePerPerson_empty_assigned "1" [egItemA] [egItemB] egItemEmpty
     (by decide) (by decide)⟩

/-- If a duplicate-free list longer than one element contains `pid`, filtering
`pid` out leaves the list non-empty. -/
theorem filter_ne_nonempty {l : List String} {pid : String}
    (hnd : l.Nodup) (hm : pid ∈ l) (hlen : 1 < l.length) :
    l.filter (fun x => x ≠ pid) ≠ [] := by
  intro hnil
  have hall : ∀ x ∈ l, x = pid := by
    intro x hx
    by_contra hne
    have hxf : x ∈ l.filter (fun x => x ≠ pid) := List.mem_filter.mpr ⟨hx, by simp [hne]⟩
    rw [hnil] at hxf
    exact (List.not_mem_nil x) hxf
  match l, hnd, hlen with
  | a :: b :: t, hnd, _ =>
    have ha : a = pid := hall a (by simp)
    have hb : b = pid := hall b (by simp)
    have : a ∉ b :: t := (List.nodup_cons.mp hnd).1
    exact this (by simp [ha, hb])

/-- **C6** counterexample: for the item assigned to `["1", "1"]`, person `"1"`
is the sole member of the assignee *set*, yet `toggleItemAssignment` (whose
guard tests the list length, `2 > 1`) removes both occurrences and leaves
`assignedTo` empty — so the operation is not a no-op on a sole assignee and
`assignedTo` can become empty through it. -/
theorem toggleAssign_sole_assignee_counterexample :
    (toggleAssign ⟨"Item 1", 10, true, ["1", "1"]⟩ "1").assignedTo = [] := by decide

/-- **C6** (amended): for an item whose `assignedTo` list has no duplicate
entries, `toggleItemAssignment`'s per-item update satisfies the contract: if
`personId` is assigned and the assignee set (= list, as it is duplicate-free)
has more than one member, it is removed; if it is the sole assignee the item is
unchanged; if it is not assigned it is appended; and `assignedTo` never becomes
empty. -/
theorem toggleAssign_contract (item : BillItem) (pid : String)
    (h : item.assignedTo.Nodup) :
    (pid ∈ item.assignedTo → 1 < item.assignedTo.length →
        (toggleAssign item pid).assignedTo = item.assignedTo.filter (fun id => id ≠ pid) ∧
        pid ∉ (toggleAssign item pid).assignedTo) ∧
    (item.assignedTo = [pid] → toggleAssign item pid = item) ∧
    (pid ∉ item.assignedTo →
        (toggleAssign item pid).assignedTo = item.assignedTo ++ [pid]) ∧
    (toggleAssign item pid).assignedTo ≠ [] := by
  refine ⟨?_, ?_, ?_, ?_⟩
  · intro hm hlen
    refine ⟨by simp [toggleAssign, hm, hlen], ?_⟩
    simp [toggleAssign, hm, hlen, List.mem_filter]
  · intro hl
    have hm : pid ∈ item.assignedTo := by simp [hl]
    have hlen : ¬ 1 < item.assignedTo.length := by simp [hl]
    simp [toggleAssign, hm, hlen]
  · intro hm
    simp [toggleAssign, hm]
  · by_cases hm : pid ∈ item.assignedTo
    · by_cases hlen : 1 < item.assignedTo.length
      · simpa [toggleAssign, hm, hlen] using filter_ne_nonempty h hm hlen
      · simpa [toggleAssign, hm, hlen] using List.ne_nil_of_mem hm
    · simp [toggleAssign, hm]

/-- Witness for the amended C6 at a concrete item. -/
theorem toggleAssign_contract_witness :
    (["1", "2"] : List String).Nodup ∧
    (("1" ∈ (["1", "2"] : List String) → 1 < (["1", "2"] : List String).length →
        (toggleAssign ⟨"Item 1", 10, true, ["1", "2"]⟩ "1").assignedTo
            = (["1", "2"] : List String).filter (fun id => id ≠ "1") ∧
        "1" ∉ (toggleAssign ⟨"Item 1", 10, true, ["1", "2"]⟩ "1").assignedTo) ∧
    ((["1", "2"] : List String) = ["1"] →
        toggleAssign ⟨"Item 1", 10, true, ["1", "2"]⟩ "1" = ⟨"Item 1", 10, true, ["1", "2"]⟩) ∧
    ("1" ∉ (["1", "2"] : List String) →
        (toggleAssign ⟨"Item 1", 10, true, ["1", "2"]⟩ "1").assignedTo
            = (["1", "2"] : List String) ++ ["1"]) ∧
    (toggleAssign ⟨"Item 1", 10, true, ["1", "2"]⟩ "1").assignedTo ≠ []) :=
  ⟨by decide, toggleAssign_contract ⟨"Item 1", 10, true, ["1", "2"]⟩ "1" (by decide)⟩

/-- The state used in the C10 counterexample: reachable after `addPerson`,
a successful extraction with people `1,2,3`, and `removePerson "1"`. -/
def egStateC10 : AppState :=
  ⟨[⟨"Item 1", 10, true, ["2", "3"]⟩], [⟨"2", "Person 2"⟩, ⟨"3", "Person 3"⟩], none⟩

/-- **C10** counterexample: in a state with people `2,3` and an item assigned
to `["2","3"]`, `addPerson` hands the new person the id `"3"` (`length + 1`),
which collides with the existing assignee `"3"`; the newly added person's
`calculatePerPerson` share over the pre-existing items is `5`, not `0`. -/
theorem addPerson_new_share_counterexample :
    (addPersonState egStateC10).people
        = egStateC10.people ++ [⟨"3", "Person 3"⟩] ∧
    (addPersonState egStateC10).items = egStateC10.items ∧
    calculatePerPerson "3" egStateC10.items = 5 ∧
    calculatePerPerson "3" egStateC10.items ≠ 0 := by
  have h5 : calculatePerPerson "3" egStateC10.items = 5 := by
    simp [egStateC10, calculatePerPerson]
    norm_num
  exact ⟨by decide, rfl, h5, by rw [h5]; norm_num⟩

/-- **C10** (amended): for every state, `addPerson` leaves the item list
entirely unchanged and appends exactly one new person; and whenever the id it
hands out (`(people.length + 1).toString()`) does not already occur in some
item's `assignedTo`, the newly added person's share over the pre-existing
items is `0`.  The frame conjuncts hold unconditionally; only the share
conjunct needs the no-collision hypothesis. -/
theorem addPerson_frame (s : AppState) :
    (addPersonState s).items = s.items ∧
    (addPersonState s).people = s.people ++
      [⟨toString (s.people.length + 1), "Person " ++ toString (s.people.length + 1)⟩] ∧
    (addPersonState s).people.length = s.people.length + 1 ∧
    ((∀ it ∈ s.items, toString (s.people.length + 1) ∉ it.assignedTo) →
      calculatePerPerson (toString (s.people.length + 1)) s.items = 0) :=
  ⟨rfl, rfl, by simp [addPersonState, addPerson],
   fun h => calculatePerPerson_of_not_mem _ _ h⟩

/-- The initial session state. -/
def egState0 : AppState := ⟨[⟨"Item 1", 10, true, ["1"]⟩], initialPeople, none⟩

/-- Witness for the amended C10 at a concrete state, discharging the
no-collision hypothesis of the share conjunct. -/
theorem addPerson_frame_witness :
    (∀ it ∈ egState0.items, toString (egState0.people.length + 1) ∉ it.assignedTo) ∧
    ((addPersonState egState0).items = egState0.items ∧
    (addPersonState egState0).people = egState0.people ++
      [⟨toString (egState0.people.length + 1), "Person " ++ toString (egState0.people.length + 1)⟩] ∧
    (addPersonState egState0).people.length = egState0.people.length + 1 ∧
    calculatePerPerson (toString (egState0.people.length + 1)) egState0.items = 0) :=
  ⟨by decide,
   (addPerson_frame egState0).1,
   (addPerson_frame egState0).2.1,
   (addPerson_frame egState0).2.2.1,
   (addPerson_frame egState0).2.2.2 (by decide)⟩

/-- **C5** When zero candidates survive, the post-OCR transition of
`processImage` reports the no-prices error and leaves the item list exactly as
it was. -/
theorem processText_no_prices (text : List Char) (s : AppState)
    (h : extractPrices text = []) :
    (processText text s).items = s.items ∧
    (processText text s).error = some noPricesMsg ∧
    (processText text s).people = s.people := by
  refine ⟨?_, ?_, ?_⟩ <;> simp [processText, h]

/-- Witness for C5 on OCR text with no prices. -/
theorem processText_no_prices_witness :
    extractPrices ("hello\nworld".toList) = [] ∧
    ((processText ("hello\nworld".toList) egState0).items = egState0.items ∧
    (processText ("hello\nworld".toList) egState0).error = some noPricesMsg ∧
    (processText ("hello\nworld".toList) egState0).people = egState0.people) :=
  ⟨by decide, processText_no_prices ("hello\nworld".toList) egState0 (by decide)⟩

/-- **C2** The code violates person-id uniqueness: starting from ids
`["1","2"]`, the handler sequence `addPerson; removePerson "1"; addPerson`
reaches a state whose ids are `["2","3","3"]` — `addPerson` derives the new id
from `people.length + 1`, which after a removal collides with an id still in
use.  So not every reachable state has pairwise-distinct `Person.id` values. -/
theorem personId_uniqueness_fails :
    ∃ ps its, Reachable ps its ∧
      ps.map Person.id = ["2", "3", "3"] ∧ ¬ (ps.map Person.id).Nodup := by
  refine ⟨_, _, Reachable.addP (Reachable.removeP "1" (Reachable.addP Reachable.init)), ?_, ?_⟩
    <;> decide

/-- **C7** The two-person floor fails: the guard `people.length > 2` does keep
a two-person state fixed, but with the duplicate ids reachable per C2 a single
`removePerson` (a `filter` by id) deletes two people at once: the sequence
`addPerson; removePerson "1"; addPerson; removePerson "3"` reaches a state with
only one person, so not every reachable state has at least two people. -/
theorem two_person_floor_fails :
    ∃ ps its, Reachable ps its ∧ ps.map Person.id = ["2"] ∧ ps.length < 2 := by
  refine ⟨_, _,
    Reachable.removeP "3"
      (Reachable.addP (Reachable.removeP "1" (Reachable.addP Reachable.init))), ?_, ?_⟩
    <;> decide

theorem buildItems_length (pids : List String) (j : Nat) (cs : List (List Char)) :
    (buildItems pids j cs).length = cs.length := by
  induction cs generalizing j with
  | nil => rfl
  | cons c cs ih => simp [buildItems, ih]

theorem buildItems_getD (pids : List String) (j i : Nat) (cs : List (List Char))
    (hi : i < cs.length) :
    (buildItems pids j cs).getD i default =
      ⟨"Item " ++ toString (j + i + 1), parseQ (cs.getD i []), true, pids⟩ := by
  induction cs generalizing j i with
  | nil => exact absurd hi (by simp)
  | cons c cs ih =>
    cases i with
    | zero => simp [buildItems]
    | succ i =>
      have hi' : i < cs.length := by simpa using hi
      simp only [buildItems, List.getD_cons_succ, ih (j + 1) i hi']
      have harith : j + 1 + i = j + (i + 1) := by omega
      rw [harith]

/-- Every surviving candidate passed the positivity and range filter. -/
theorem extractPrices_mem_range (text : List Char) :
    ∀ p ∈ extractPrices text, 0 < parseQ p ∧ 1 / 2 ≤ parseQ p ∧ parseQ p ≤ 1000 := by
  intro p hp
  obtain ⟨line, _, hfp⟩ := List.mem_filterMap.mp hp
  revert hfp
  cases hcap : priceCapture (trimJS line) with
  | none => simp
  | some s =>
    simp only []
    by_cases hcond : 0 < parseQ s ∧ 1 / 2 ≤ parseQ s ∧ parseQ s ≤ 1000
    · rw [if_pos hcond]
      rintro ⟨rfl⟩
      exact hcond
    · rw [if_neg hcond]
      intro hfalse
      exact absurd hfalse (by simp)

/-- **C4** Extraction output shape: when at least one candidate survives, the
item list has exactly one `BillItem` per surviving candidate, in
line-encounter order; the `i`-th item has description `"Item {i+1}"`
(1-based), `includedInSplit = true`, `assignedTo` equal to the given snapshot
of person ids, and an amount that parses the candidate exactly and lies in
`[0.50, 1000.00]`. -/
theorem extractItems_shape (text : List Char) (pids : List String)
    (_h : 0 < (extractPrices text).length) :
    (extractItems text pids).length = (extractPrices text).length ∧
    ∀ i, i < (extractPrices text).length →
      (extractItems text pids).getD i default =
        ⟨"Item " ++ toString (i + 1), parseQ ((extractPrices text).getD i []), true, pids⟩ ∧
      1 / 2 ≤ parseQ ((extractPrices text).getD i []) ∧
      parseQ ((extractPrices text).getD i []) ≤ 1000 := by
  refine ⟨buildItems_length pids 0 _, ?_⟩
  intro i hi
  refine ⟨by simpa using buildItems_getD pids 0 i _ hi, ?_, ?_⟩ <;>
  · have hmem : (extractPrices text).getD i [] ∈ extractPrices text := by
      rw [List.getD_eq_getElem _ _ hi]
      exact List.getElem_mem hi
    have := extractPrices_mem_range text _ hmem
    tauto

/-- Concrete OCR text used in the C4 witness. -/
def egText : List Char := "Coffee 3.50\nTea 2.00".toList

/-! ## Conservation of the split (C1) -/

theorem sum_map_ite_mem (c : ℚ) (A : List String) (people : List Person) :
    (people.map (fun p => if p.id ∈ A then c else 0)).sum
      = ((people.filter (fun p => p.id ∈ A)).length : ℚ) * c := by
  induction people with
  | nil => simp
  | cons q ps ih =>
    by_cases hq : q.id ∈ A
    · have hf : List.filter (fun p => decide (p.id ∈ A)) (q :: ps)
          = q :: List.filter (fun p => decide (p.id ∈ A)) ps := by
        simp [List.filter_cons, hq]
      simp only [List.map_cons, List.sum_cons, if_pos hq, ih, hf, List.length_cons]
      push_cast
      ring
    · have hf : List.filter (fun p => decide (p.id ∈ A)) (q :: ps)
          = List.filter (fun p => decide (p.id ∈ A)) ps := by
        simp [List.filter_cons, hq]
      simp only [List.map_cons, List.sum_cons, if_neg hq, ih, hf]
      ring

/-- With pairwise-distinct person ids, a duplicate-free assignee list drawn
from those ids is hit by exactly `A.length` people. -/
theorem count_people_eq (people : List Person) (A : List String)
    (hnp : (people.map Person.id).Nodup) (hA : A.Nodup)
    (hsub : ∀ a ∈ A, a ∈ people.map Person.id) :
    (people.filter (fun p => p.id ∈ A)).length = A.length := by
  have h1 : (people.filter (fun p => p.id ∈ A)).length
      = ((people.map Person.id).filter (fun x => x ∈ A)).length := by
    rw [← List.countP_eq_length_filter, ← List.countP_eq_length_filter, List.countP_map]
    rfl
  have h2 : ((people.map Person.id).filter (fun x => x ∈ A)).Perm A := by
    rw [List.perm_ext_iff_of_nodup (hnp.filter _) hA]
    intro a
    simp only [List.mem_filter, decide_eq_true_eq]
    exact ⟨fun h => h.2, fun h => ⟨hsub a h, h⟩⟩
  rw [h1, h2.length_eq]

/-- **C1** counterexample: with the two initial people and a single included
item of amount `1` whose (non-empty) `assignedTo` is `["3"]` — an id that
belongs to no current person — the sum of all people's
`calculatePerPerson` shares is `0` while `calculateTotal` is `1`. -/
theorem conservation_counterexample :
    (∀ it ∈ [(⟨"Item 1", 1, true, ["3"]⟩ : BillItem)],
        it.includedInSplit = true → it.assignedTo ≠ []) ∧
    (initialPeople.map
        (fun p => calculatePerPerson p.id [(⟨"Item 1", 1, true, ["3"]⟩ : BillItem)])).sum
      ≠ calculateTotal [(⟨"Item 1", 1, true, ["3"]⟩ : BillItem)] := by
  constructor
  · decide
  · simp [initialPeople, calculatePerPerson, calculateTotal]

/-- **C1** (amended): conservation of the split holds whenever the current
people's ids are pairwise distinct and every included item's `assignedTo` is
non-empty, duplicate-free, and drawn from the current people's ids: the sum
over all current people of `calculatePerPerson(personId)` equals
`calculateTotal()`, exactly, over exact arithmetic. -/
theorem conservation (people : List Person) (items : List BillItem)
    (hnp : (people.map Person.id).Nodup)
    (hitems : ∀ it ∈ items, it.includedInSplit = true →
      it.assignedTo ≠ [] ∧ it.assignedTo.Nodup ∧
        ∀ a ∈ it.assignedTo, a ∈ people.map Person.id) :
    (people.map (fun p => calculatePerPerson p.id items)).sum = calculateTotal items := by
  induction items with
  | nil => simp [calculatePerPerson, calculateTotal]
  | cons it l ih =>
    have hl : ∀ it' ∈ l, it'.includedInSplit = true →
        it'.assignedTo ≠ [] ∧ it'.assignedTo.Nodup ∧
          ∀ a ∈ it'.assignedTo, a ∈ people.map Person.id :=
      fun it' h' => hitems it' (List.mem_cons_of_mem it h')
    have hsum : (people.map (fun p => calculatePerPerson p.id (it :: l))).sum
        = (people.map (fun p =>
            if it.includedInSplit = true ∧ p.id ∈ it.assignedTo
              then it.amount / (it.assignedTo.length : ℚ) else 0)).sum
          + (people.map (fun p => calculatePerPerson p.id l)).sum := by
      simp only [calculatePerPerson_cons, List.sum_map_add]
    rw [hsum, ih hl, calculateTotal_cons]
    by_cases hinc : it.includedInSplit = true
    · obtain ⟨hne, hnd, hsub⟩ := hitems it (List.mem_cons_self it l) hinc
      have hcond : (people.map (fun p =>
            if it.includedInSplit = true ∧ p.id ∈ it.assignedTo
              then it.amount / (it.assignedTo.length : ℚ) else 0))
          = (people.map (fun p =>
            if p.id ∈ it.assignedTo
              then it.amount / (it.assignedTo.length : ℚ) else 0)) := by
        simp [hinc]
      rw [hcond, sum_map_ite_mem, count_people_eq people it.assignedTo hnp hnd hsub,
        if_pos hinc]
      have hlen : ((it.assignedTo.length : ℚ)) ≠ 0 := by
        have : 0 < it.assignedTo.length := List.length_pos.mpr hne
        exact_mod_cast this.ne'
      rw [mul_comm, div_mul_cancel₀ _ hlen]
    · have hcond : (people.map (fun p =>
            if it.includedInSplit = true ∧ p.id ∈ it.assignedTo
              then it.amount / (it.assignedTo.length : ℚ) else 0))
          = (people.map (fun _ => (0 : ℚ))) := by
        simp [hinc]
      rw [hcond, if_neg hinc]
      simp

/-- Witness for the amended C1 at the initial people and one concrete item. -/
theorem conservation_witness :
    (initialPeople.map Person.id).Nodup ∧
    (∀ it ∈ egItems1, it.includedInSplit = true →
      it.assignedTo ≠ [] ∧ it.assignedTo.Nodup ∧
        ∀ a ∈ it.assignedTo, a ∈ initialPeople.map Person.id) ∧
    (initialPeople.map (fun p => calculatePerPerson p.id egItems1)).sum
      = calculateTotal egItems1 :=
  ⟨by decide, by decide, conservation initialPeople egItems1 (by decide) (by decide)⟩

/-- Evaluation of `parseQ` on a candidate with a fraction part. -/
theorem parseQ_eval_frac (cs ip fs : List Char) (a b : Nat)
    (hta : cs.takeWhile Char.isDigit = ip)
    (hdr : cs.dropWhile Char.isDigit = '.' :: fs)
    (ha : digitsToNat ip = a) (hb : digitsToNat fs = b) :
    parseQ cs = a + b / 100 := by
  simp [parseQ, hta, hdr, ha, hb]

/-- Witness for C4 on a two-line receipt text. -/
theorem extractItems_shape_witness :
    0 < (extractPrices egText).length ∧
    ((extractItems egText ["1", "2"]).length = (extractPrices egText).length ∧
    ∀ i, i < (extractPrices egText).length →
      (extractItems egText ["1", "2"]).getD i default =
        ⟨"Item " ++ toString (i + 1), parseQ ((extractPrices egText).getD i []), true,
          ["1", "2"]⟩ ∧
      1 / 2 ≤ parseQ ((extractPrices egText).getD i []) ∧
      parseQ ((extractPrices egText).getD i []) ≤ 1000) := by
  have hp1 : parseQ ['3', '.', '5', '0'] = 7 / 2 := by
    rw [parseQ_eval_frac ['3', '.', '5', '0'] ['3'] ['5', '0'] 3 50
      (by decide) (by decide) (by decide) (by decide)]
    norm_num
  have hp2 : parseQ ['2', '.', '0', '0'] = 2 := by
    rw [parseQ_eval_frac ['2', '.', '0', '0'] ['2'] ['0', '0'] 2 0
      (by decide) (by decide) (by decide) (by decide)]
    norm_num
  have hs : splitOnNl egText =
      [['C', 'o', 'f', 'f', 'e', 'e', ' ', '3', '.', '5', '0'],
       ['T', 'e', 'a', ' ', '2', '.', '0', '0']] := by decide
  have hc1 : priceCapture (trimJS ['C', 'o', 'f', 'f', 'e', 'e', ' ', '3', '.', '5', '0'])
      = some ['3', '.', '5', '0'] := by decide
  have hc2 : priceCapture (trimJS ['T', 'e', 'a', ' ', '2', '.', '0', '0'])
      = some ['2', '.', '0', '0'] := by decide
  have he : extractPrices egText = [['3', '.', '5', '0'], ['2', '.', '0', '0']] := by
    rw [extractPrices, hs]
    simp only [List.filterMap_cons, hc1, hc2, List.filterMap_nil]
    norm_num [hp1, hp2]
  exact ⟨by rw [he]; decide, extractItems_shape egText ["1", "2"] (by rw [he]; decide)⟩

/-! ## The long-fraction lines (C3) -/

theorem dropWhile_append_of_neg (p : Char → Bool) (xs : List Char) (y : Char) (ys : List Char)
    (hy : p y = false) :
    (xs ++ y :: ys).dropWhile p = xs.dropWhile p ++ y :: ys := by
  induction xs with
  | nil => simp [List.dropWhile_cons, hy]
  | cons x xs ih =>
    by_cases hx : p x = true
    · simp [List.dropWhile_cons, hx, ih]
    · simp [List.dropWhile_cons, hx]

/-- A suffix containing a `'.'` followed by at least three characters is never
a full `\d+(\.\d{2})?` capture group. -/
theorem groupOk_append_dot_false (g F : List Char) (hF : 3 ≤ F.length) :
    groupOk (g ++ '.' :: F) = false := by
  have hrest : (g ++ '.' :: F).dropWhile Char.isDigit
      = g.dropWhile Char.isDigit ++ '.' :: F :=
    dropWhile_append_of_neg _ _ _ _ (by decide)
  cases hres : groupOk (g ++ '.' :: F) with
  | false => rfl
  | true =>
    exfalso
    unfold groupOk at hres
    simp only [Bool.and_eq_true, Bool.or_eq_true, decide_eq_true_eq, hrest] at hres
    obtain ⟨-, hres⟩ := hres
    rcases hres with h | ⟨⟨hlen, -⟩, -⟩
    · simp at h
    · rw [List.length_append, List.length_cons] at hlen
      omega

/-- A digit character is not `'$'` and not whitespace. -/
theorem digit_not_space {c : Char} (h : c.isDigit = true) : isSpaceJS c = false := by
  cases hs : isSpaceJS c with
  | false => rfl
  | true =>
    exfalso
    have hmem : c = ' ' ∨ c = '\t' ∨ c = '\r' ∨ c = '\n' := by
      simpa [isSpaceJS, Char.isWhitespace, or_assoc] using hs
    rcases hmem with h1 | h1 | h1 | h1 <;> (rw [h1] at h; exact absurd h (by decide))

theorem suffixMatch_append_dot_false (mid F : List Char) (hF : 3 ≤ F.length) :
    suffixMatch (mid ++ '.' :: F) = false := by
  rw [suffixMatch, stripHead]
  have hsd : stripDollar (mid ++ '.' :: F) = stripDollar mid ++ '.' :: F := by
    cases mid with
    | nil => simp [stripDollar]
    | cons c mid' =>
      by_cases hc : c = '$'
      · subst hc; simp [stripDollar]
      · simp [stripDollar, hc]
  rw [hsd]
  have hds : (stripDollar mid ++ '.' :: F).dropWhile isSpaceJS
      = (stripDollar mid).dropWhile isSpaceJS ++ '.' :: F :=
    dropWhile_append_of_neg _ _ _ _ (by decide)
  rw [hds]
  exact groupOk_append_dot_false _ F hF

theorem stripHead_all_digits (F : List Char) (hne : F ≠ [])
    (hdig : ∀ c ∈ F, c.isDigit = true) : stripHead F = F := by
  obtain ⟨f, F', rfl⟩ := List.exists_cons_of_ne_nil hne
  have hf : f.isDigit = true := hdig f (by simp)
  have hd : ¬ ((f :: F').head? = some '$') := by
    simp only [List.head?_cons, Option.some.injEq]
    intro heq
    rw [heq] at hf
    exact absurd hf (by decide)
  rw [stripHead, stripDollar, if_neg hd]
  simp [List.dropWhile_cons, digit_not_space hf]

theorem suffixMatch_all_digits (F : List Char) (hne : F ≠ [])
    (hdig : ∀ c ∈ F, c.isDigit = true) : suffixMatch F = true := by
  rw [suffixMatch, stripHead_all_digits F hne hdig]
  have hta : F.takeWhile Char.isDigit = F := List.takeWhile_eq_self_iff.mpr hdig
  have hdr : F.dropWhile Char.isDigit = [] := List.dropWhile_eq_nil_iff.mpr hdig
  simp [groupOk, hta, hdr, hne]

/-- **C3** (amended): a line whose trailing numeric token has more than two
decimal digits does NOT fall through; because the pattern is unanchored at its
start, the matcher still succeeds and captures exactly the trailing digit run
after the final `'.'` (never the whole token).  Writing the trimmed line as
`pre ++ '.' :: F` with `F` its trailing run of `≥ 3` digits, the captured
candidate is `F`; the line then produces an item iff `F`'s value passes the
positivity and `[0.50, 1000.00]` filters (e.g. `"12.505"` yields an item of
amount `505`). -/
theorem priceCapture_long_fraction (pre F : List Char) (hF : 3 ≤ F.length)
    (hdig : ∀ c ∈ F, c.isDigit = true) :
    priceCapture (pre ++ '.' :: F) = some F := by
  induction pre with
  | nil =>
    have hne : F ≠ [] := by
      intro h
      rw [h] at hF
      exact absurd hF (by decide)
    have h0 := suffixMatch_append_dot_false [] F hF
    simp only [List.nil_append] at h0 ⊢
    obtain ⟨f, F', rfl⟩ := List.exists_cons_of_ne_nil hne
    have hsm : suffixMatch (f :: F') = true := suffixMatch_all_digits _ hne hdig
    have hsh : stripHead (f :: F') = f :: F' := stripHead_all_digits _ hne hdig
    simp [priceCapture, h0, hsm, hsh]
  | cons c pre' ih =>
    have hsm : suffixMatch (c :: (pre' ++ '.' :: F)) = false := by
      have := suffixMatch_append_dot_false (c :: pre') F hF
      simpa using this
    simp only [List.cons_append, priceCapture]
    rw [if_neg (by simp [hsm])]
    exact ih

/-- Witness for the amended C3: the line `"12.505"` captures `"505"`. -/
theorem priceCapture_long_fraction_witness :
    3 ≤ (['5', '0', '5'] : List Char).length ∧
    (∀ c ∈ (['5', '0', '5'] : List Char), c.isDigit = true) ∧
    priceCapture (['1', '2'] ++ '.' :: ['5', '0', '5']) = some ['5', '0', '5'] :=
  ⟨by decide, by decide,
   priceCapture_long_fraction ['1', '2'] ['5', '0', '5'] (by decide) (by decide)⟩

/-- **C3** counterexample: on the line `"12.505"`, whose trailing numeric
token `12.505` has three decimal digits, the extractor DOES produce an item:
the captured candidate is the digit run `"505"`, which passes the filters, so
the resulting item list is non-empty (one item of amount `505`). -/
theorem long_fraction_counterexample :
    extractPrices ("12.505".toList) = [['5', '0', '5']] ∧
    extractItems ("12.505".toList) ["1", "2"] ≠ [] := by
  have hs : splitOnNl ['1', '2', '.', '5', '0', '5'] = [['1', '2', '.', '5', '0', '5']] := by
    decide
  have hc : priceCapture (trimJS ['1', '2', '.', '5', '0', '5']) = some ['5', '0', '5'] := by
    decide
  have hp : parseQ ['5', '0', '5'] = 505 := by
    have ht : (['5', '0', '5'].takeWhile Char.isDigit) = ['5', '0', '5'] := by decide
    have hd : (['5', '0', '5'].dropWhile Char.isDigit) = [] := by decide
    have hn : digitsToNat ['5', '0', '5'] = 505 := by decide
    simp [parseQ, ht, hd, hn]
  have htl : ("12.505".toList) = ['1', '2', '.', '5', '0', '5'] := by decide
  have he : extractPrices ("12.505".toList) = [['5', '0', '5']] := by
    rw [extractPrices, htl, hs, List.filterMap_cons, hc]
    norm_num [hp]
  refine ⟨he, ?_⟩
  rw [extractItems, he]
  simp [buildItems]
